import Mathlib

/-!
Verification of the text-processing and annotation logic of the
ReverseMyAge agent-engine front end (component `ChatMessagesView`).

The component's handlers are shallowly embedded here: text is a `String`
(worked on as its `List Char` of code points), the component's
`Record<string, T>` states are functions `String → Option T` or
association lists, and each JavaScript regex substitution used by the
handlers is translated into an executable scanner that reproduces the
ECMAScript matching semantics of that concrete pattern (leftmost match,
global scan, greedy/lazy quantifiers, multiline anchors, dot excluding
line terminators).  The scanners take a fuel argument so that every
definition is structurally recursive and evaluates inside the kernel;
the public wrappers instantiate the fuel with a bound that the scan can
never exhaust (each step consumes at least one character).
-/

/-- The backtick character (code point 96). -/
def btick : Char := Char.ofNat 96

/-- Characters matched by the ECMAScript class `\s` (also exactly the set
trimmed by `String.prototype.trim`). -/
def isSpaceJS (c : Char) : Bool :=
  let n := c.toNat
  n = 9 || n = 10 || n = 11 || n = 12 || n = 13 || n = 32 ||
  n = 0xa0 || n = 0x1680 || (0x2000 ≤ n && n ≤ 0x200a) ||
  n = 0x2028 || n = 0x2029 || n = 0x202f || n = 0x205f ||
  n = 0x3000 || n = 0xfeff

/-- ECMAScript line terminators: LF, CR, LS, PS.  `.` never matches these,
and with the `m` flag `^` matches just after them and `$` just before. -/
def isLineTerm (c : Char) : Bool :=
  let n := c.toNat
  n = 10 || n = 13 || n = 0x2028 || n = 0x2029

/-- `startsWithL p s` is true when `p` is an initial segment of `s`. -/
def startsWithL : List Char → List Char → Bool
  | [], _ => true
  | _ :: _, [] => false
  | p :: ps, c :: cs => p = c && startsWithL ps cs

/-- All indices `i` (in increasing order) at which the pattern occurs in
`s`, i.e. at which `s.drop i` starts with the pattern. -/
def subPositions (pat : List Char) : List Char → List Nat
  | [] => if startsWithL pat [] then [0] else []
  | c :: cs =>
    (if startsWithL pat (c :: cs) then [0] else []) ++
      (subPositions pat cs).map (· + 1)

/-- `String.prototype.trim`: strip `isSpaceJS` characters from both ends. -/
def trimJS (s : List Char) : List Char :=
  ((s.dropWhile isSpaceJS).reverse.dropWhile isSpaceJS).reverse

/-- Model of `handleTogglePin` in `ChatMessagesView.tsx` (the update
applied to the `pinnedMessages` list): remove every occurrence of the id
when present, append it otherwise.  The localStorage mirror of the
resulting list is not modelled. -/
def handleTogglePin (messageId : String) (prev : List String) : List String :=
  if prev.contains messageId then prev.filter (· != messageId)
  else prev ++ [messageId]

/-- The closed tag set `'decision' | 'action' | 'idea'`. -/
inductive Tag where
  | decision
  | action
  | idea
deriving DecidableEq

/-- The `messageTagsMap` state, a JavaScript object: an insertion-ordered
association list whose keys are unique (the invariant under scrutiny). -/
abbrev TagMap := List (String × Tag)

/-- Model of `handleSetTag`: the object spread `{...prev, [messageId]: tag}`.
A computed key that is already present keeps its position and gets the
new value (JavaScript objects keep first-insertion key order); a fresh
key is appended. -/
def handleSetTag (messageId : String) (tag : Tag) (m : TagMap) : TagMap :=
  if m.any (fun p => p.1 == messageId) then
    m.map (fun p => if p.1 == messageId then (messageId, tag) else p)
  else
    m ++ [(messageId, tag)]

/-- Model of `handleRemoveTag`: `delete updated[messageId]` removes the
binding for the id. -/
def handleRemoveTag (messageId : String) (m : TagMap) : TagMap :=
  m.filter (fun p => p.1 != messageId)

/-- Property access `m[messageId]` on the tag object: the value of the
first (on the invariant: only) binding of the key. -/
def lookupTag (messageId : String) (m : TagMap) : Option Tag :=
  (m.find? (fun p => p.1 == messageId)).map (·.2)

/-- One user action on the tag map. -/
inductive TagOp where
  | set (messageId : String) (tag : Tag)
  | remove (messageId : String)

/-- Apply one tag operation. -/
def applyTagOp (m : TagMap) : TagOp → TagMap
  | .set messageId tag => handleSetTag messageId tag m
  | .remove messageId => handleRemoveTag messageId m

/-- Apply a sequence of tag operations, oldest first. -/
def applyTagOps (ops : List TagOp) (m : TagMap) : TagMap :=
  ops.foldl applyTagOp m

/-- Keys of a tag map, in order. -/
def tagKeys (m : TagMap) : List String := m.map (·.1)

/-- Scanner for the global replacement of a literal pattern by a literal
replacement (e.g. `/\n\n/g → "</p><p>"`, `/<p><\/p>/g → ""`,
`/\[\]/g → ""`, `/\(\)/g → ""`).  `lit` must be non-empty. -/
def replaceLitGo (lit repl : List Char) : Nat → List Char → List Char
  | 0, s => s
  | _ + 1, [] => []
  | fuel + 1, c :: cs =>
    if startsWithL lit (c :: cs) then
      repl ++ replaceLitGo lit repl fuel ((c :: cs).drop lit.length)
    else c :: replaceLitGo lit repl fuel cs

/-- `s.replace(lit-pattern, repl)` for a literal pattern. -/
def replaceLit (lit repl : List Char) (s : List Char) : List Char :=
  replaceLitGo lit repl (s.length + 1) s

/-- The pattern `` ``` `` as a character list. -/
def tripleB : List Char := [btick, btick, btick]

/-- Scanner for ``/```[\s\S]*?```/g`` replaced by `repl`: at each
occurrence of a fence opening, the lazy body runs to the earliest
following fence, and the whole match is replaced; with no closing fence
the scan moves on one character. -/
def fencesGo (repl : List Char) : Nat → List Char → List Char
  | 0, s => s
  | _ + 1, [] => []
  | fuel + 1, c :: cs =>
    if startsWithL tripleB (c :: cs) then
      match (subPositions tripleB (cs.drop 2)).head? with
      | some j => repl ++ fencesGo repl fuel ((cs.drop 2).drop (j + 3))
      | none => c :: fencesGo repl fuel cs
    else c :: fencesGo repl fuel cs

/-- ``s.replace(/```[\s\S]*?```/g, repl)``. -/
def fencesRepl (repl : List Char) (s : List Char) : List Char :=
  fencesGo repl (s.length + 1) s

/-- Scanner for ``/`([^`]+)`/g`` replaced by `pre ++ $1 ++ post`
(`pre = post = []` is the plain unwrapping `"$1"`). -/
def inlineCodeGo (pre post : List Char) : Nat → List Char → List Char
  | 0, s => s
  | _ + 1, [] => []
  | fuel + 1, c :: cs =>
    if c = btick then
      let t := cs.takeWhile (fun ch => ch != btick)
      if t.isEmpty then c :: inlineCodeGo pre post fuel cs
      else
        match cs.drop t.length with
        | d :: r =>
          if d = btick then pre ++ t ++ post ++ inlineCodeGo pre post fuel r
          else c :: inlineCodeGo pre post fuel cs
        | [] => c :: inlineCodeGo pre post fuel cs
    else c :: inlineCodeGo pre post fuel cs

/-- ``s.replace(/`([^`]+)`/g, pre ++ "$1" ++ post)``. -/
def inlineCodeRepl (pre post : List Char) (s : List Char) : List Char :=
  inlineCodeGo pre post (s.length + 1) s

/-- The class `[#>\-\*\+]` of heading/list/quote markers. -/
def isMarkerC (c : Char) : Bool :=
  c = '#' || c = '>' || c = '-' || c = '*' || c = '+'

/-- Scanner for `/^[#>\-\*\+]+\s+/gm` replaced by the empty string.
`atStart` records whether the current position follows a line terminator
(or is the start of input), where the multiline `^` matches.  The greedy
`\s+` may run across line terminators; the next position is again a line
start exactly when the last consumed whitespace character is a line
terminator. -/
def lineMarkGo : Nat → Bool → List Char → List Char
  | 0, _, s => s
  | _ + 1, _, [] => []
  | fuel + 1, atStart, c :: cs =>
    if atStart && isMarkerC c then
      let ms := (c :: cs).takeWhile isMarkerC
      let rest := (c :: cs).drop ms.length
      let ws := rest.takeWhile isSpaceJS
      if ws.isEmpty then c :: lineMarkGo fuel (isLineTerm c) cs
      else
        lineMarkGo fuel
          (match ws.getLast? with
           | some l => isLineTerm l
           | none => false)
          (rest.drop ws.length)
    else c :: lineMarkGo fuel (isLineTerm c) cs

/-- `s.replace(/^[#>\-\*\+]+\s+/gm, "")`. -/
def lineMarkRepl (s : List Char) : List Char :=
  lineMarkGo (s.length + 1) true s

/-- Scanner for `/\[([^\]]+)\]\(([^)]+)\)/g`, the replacement being built
from the captures by `mk` (`fun t u => ...`; the plain-text handlers use
`fun t _ => t`, the HTML export builds an anchor tag). -/
def linkGo (mk : List Char → List Char → List Char) :
    Nat → List Char → List Char
  | 0, s => s
  | _ + 1, [] => []
  | fuel + 1, c :: cs =>
    if c = '[' then
      let t := cs.takeWhile (fun ch => ch != ']')
      if t.isEmpty then c :: linkGo mk fuel cs
      else
        match cs.drop t.length with
        | ']' :: '(' :: r2 =>
          let u := r2.takeWhile (fun ch => ch != ')')
          if u.isEmpty then c :: linkGo mk fuel cs
          else
            match r2.drop u.length with
            | ')' :: r3 => mk t u ++ linkGo mk fuel r3
            | _ => c :: linkGo mk fuel cs
        | _ => c :: linkGo mk fuel cs
    else c :: linkGo mk fuel cs

/-- `s.replace(/\[([^\]]+)\]\(([^)]+)\)/g, mk $1 $2)`. -/
def linkRepl (mk : List Char → List Char → List Char) (s : List Char) :
    List Char :=
  linkGo mk (s.length + 1) s

/-- Scanner for `/!\[([^\]]*)\]\(([^)]+)\)/g` replaced by `$1` (the alt
text may be empty). -/
def imageGo : Nat → List Char → List Char
  | 0, s => s
  | _ + 1, [] => []
  | fuel + 1, c :: cs =>
    if c = '!' then
      match cs with
      | '[' :: cs2 =>
        let t := cs2.takeWhile (fun ch => ch != ']')
        match cs2.drop t.length with
        | ']' :: '(' :: r2 =>
          let u := r2.takeWhile (fun ch => ch != ')')
          if u.isEmpty then c :: imageGo fuel cs
          else
            match r2.drop u.length with
            | ')' :: r3 => t ++ imageGo fuel r3
            | _ => c :: imageGo fuel cs
        | _ => c :: imageGo fuel cs
      | _ => c :: imageGo fuel cs
    else c :: imageGo fuel cs

/-- `s.replace(/!\[([^\]]*)\]\(([^)]+)\)/g, "$1")`. -/
def imageRepl (s : List Char) : List Char :=
  imageGo (s.length + 1) s

/-- Scanner for `/\n{3,}/g → "\n\n"`: runs of three or more newlines
collapse to exactly two. -/
def nlRunGo : Nat → List Char → List Char
  | 0, s => s
  | _ + 1, [] => []
  | fuel + 1, c :: cs =>
    if c = '\n' then
      let run := cs.takeWhile (fun ch => ch = '\n')
      if 2 ≤ run.length then
        '\n' :: '\n' :: nlRunGo fuel (cs.drop run.length)
      else c :: nlRunGo fuel cs
    else c :: nlRunGo fuel cs

/-- `s.replace(/\n{3,}/g, "\n\n")`. -/
def nlRunRepl (s : List Char) : List Char :=
  nlRunGo (s.length + 1) s

/-- Scanner for `/\s+/g → " "`: every whitespace run collapses to a
single space. -/
def wsCollapseGo : Nat → List Char → List Char
  | 0, s => s
  | _ + 1, [] => []
  | fuel + 1, c :: cs =>
    if isSpaceJS c then ' ' :: wsCollapseGo fuel (cs.dropWhile isSpaceJS)
    else c :: wsCollapseGo fuel cs

/-- `s.replace(/\s+/g, " ")`. -/
def wsCollapse (s : List Char) : List Char :=
  wsCollapseGo (s.length + 1) s

/-- The emoji / symbol ranges stripped by `handleCopyPlainText`:
`/[\u{1F300}-\u{1FAFF}\u{2600}-\u{26FF}\u{2700}-\u{27BF}]/gu → ""`. -/
def emojiStripCopy (s : List Char) : List Char :=
  s.filter (fun c =>
    let n := c.toNat
    !((0x1F300 ≤ n && n ≤ 0x1FAFF) || (0x2600 ≤ n && n ≤ 0x26FF) ||
      (0x2700 ≤ n && n ≤ 0x27BF)))

/-- ASCII letters, matched by `[a-z]` under the `i` flag. -/
def isAsciiLetter (c : Char) : Bool :=
  let n := c.toNat
  (97 ≤ n && n ≤ 122) || (65 ≤ n && n ≤ 90)

/-- `"http://"` as characters. -/
def httpL : List Char := "http://".data

/-- `"https://"` as characters. -/
def httpsL : List Char := "https://".data

/-- Scanner for `/https?:\/\/\S+/g → ""` (the `cleanText` bare-URL
strip): a scheme followed by at least one non-whitespace character is
removed; a scheme with nothing after it does not match. -/
def urlStripGo : Nat → List Char → List Char
  | 0, s => s
  | _ + 1, [] => []
  | fuel + 1, c :: cs =>
    if startsWithL httpsL (c :: cs) then
      let t := ((c :: cs).drop 8).takeWhile (fun ch => !isSpaceJS ch)
      if t.isEmpty then c :: urlStripGo fuel cs
      else urlStripGo fuel (((c :: cs).drop 8).drop t.length)
    else if startsWithL httpL (c :: cs) then
      let t := ((c :: cs).drop 7).takeWhile (fun ch => !isSpaceJS ch)
      if t.isEmpty then c :: urlStripGo fuel cs
      else urlStripGo fuel (((c :: cs).drop 7).drop t.length)
    else c :: urlStripGo fuel cs

/-- `s.replace(/https?:\/\/\S+/g, "")`. -/
def urlStrip (s : List Char) : List Char :=
  urlStripGo (s.length + 1) s

/-- Scanner for `/\[([^\]]+)\]\(https?:\/\/[^\)]+\)/g → ""` (the
`cleanText` citation-link removal): the text between the parentheses
must start with an `http(s)` scheme and continue with at least one
further non-`)` character; the whole link, link text included, is
deleted. -/
def citeLinkGo : Nat → List Char → List Char
  | 0, s => s
  | _ + 1, [] => []
  | fuel + 1, c :: cs =>
    if c = '[' then
      let t := cs.takeWhile (fun ch => ch != ']')
      if t.isEmpty then c :: citeLinkGo fuel cs
      else
        match cs.drop t.length with
        | ']' :: '(' :: r2 =>
          let u := r2.takeWhile (fun ch => ch != ')')
          if (startsWithL httpsL u && decide (8 < u.length)) ||
              (startsWithL httpL u && decide (7 < u.length)) then
            match r2.drop u.length with
            | ')' :: r3 => citeLinkGo fuel r3
            | _ => c :: citeLinkGo fuel cs
          else c :: citeLinkGo fuel cs
        | _ => c :: citeLinkGo fuel cs
    else c :: citeLinkGo fuel cs

/-- `s.replace(/\[([^\]]+)\]\(https?:\/\/[^\)]+\)/g, "")`. -/
def citeLinkStrip (s : List Char) : List Char :=
  citeLinkGo (s.length + 1) s

/-- Scanner for the lazy paired-delimiter patterns `/\*\*(.*?)\*\*/g`,
`/__(.*?)__/g`, `/\*(.*?)\*/g`, `/_(.*?)_/g`, the replacement being
`pre ++ $1 ++ post`.  The lazy dot does not cross line terminators, so
the closing delimiter is the earliest occurrence of `d` before the next
line terminator; the capture may be empty. -/
def lazyPairGo (d pre post : List Char) : Nat → List Char → List Char
  | 0, s => s
  | _ + 1, [] => []
  | fuel + 1, c :: cs =>
    if startsWithL d (c :: cs) then
      let body := (c :: cs).drop d.length
      let region := body.takeWhile (fun ch => !isLineTerm ch)
      match (subPositions d region).head? with
      | some j =>
        pre ++ region.take j ++ post ++
          lazyPairGo d pre post fuel (body.drop (j + d.length))
      | none => c :: lazyPairGo d pre post fuel cs
    else c :: lazyPairGo d pre post fuel cs

/-- `s.replace(/d(.*?)d/g, pre ++ "$1" ++ post)` for a delimiter `d`
containing no line terminators. -/
def lazyPairRepl (d pre post : List Char) (s : List Char) : List Char :=
  lazyPairGo d pre post (s.length + 1) s

/-- Scanner for the per-line patterns `/^M (.*$)/gim` (`M ` one of
`"### "`, `"## "`, `"# "`, `"* "`, `"- "`, `"> "`), the replacement
being `pre ++ $1 ++ post`.  `^` matches at the start of input and after
a line terminator; `(.*$)` captures the rest of the line. -/
def lineHeadGo (marker pre post : List Char) :
    Nat → Bool → List Char → List Char
  | 0, _, s => s
  | _ + 1, _, [] => []
  | fuel + 1, atStart, c :: cs =>
    if atStart && startsWithL marker (c :: cs) then
      let rest := (c :: cs).drop marker.length
      let captured := rest.takeWhile (fun ch => !isLineTerm ch)
      pre ++ captured ++ post ++
        lineHeadGo marker pre post fuel false (rest.drop captured.length)
    else c :: lineHeadGo marker pre post fuel (isLineTerm c) cs

/-- `s.replace(/^M (.*$)/gim, pre ++ "$1" ++ post)`. -/
def lineHeadRepl (marker pre post : List Char) (s : List Char) : List Char :=
  lineHeadGo marker pre post (s.length + 1) true s

/-- Scanner for `/^---$/gim → "<hr>"`: a line consisting exactly of
`---` is replaced (the line terminator itself stays, `$` being
zero-width). -/
def hrGo (lit repl : List Char) : Nat → Bool → List Char → List Char
  | 0, _, s => s
  | _ + 1, _, [] => []
  | fuel + 1, atStart, c :: cs =>
    if atStart && startsWithL lit (c :: cs) &&
        (match (c :: cs).drop lit.length with
         | [] => true
         | d :: _ => isLineTerm d) then
      repl ++ hrGo lit repl fuel false ((c :: cs).drop lit.length)
    else c :: hrGo lit repl fuel (isLineTerm c) cs

/-- `s.replace(/^lit$/gim, repl)`. -/
def hrRepl (lit repl : List Char) (s : List Char) : List Char :=
  hrGo lit repl (s.length + 1) true s

/-- Scanner for ``/```([a-z]*)\n([\s\S]*?)```/gim`` replaced by
`<pre><code class="language-$1">$2</code></pre>`: a fence opening, a
(case-insensitive) language word, a literal newline, then the lazy body
up to the earliest closing fence. -/
def codeFenceGo : Nat → List Char → List Char
  | 0, s => s
  | _ + 1, [] => []
  | fuel + 1, c :: cs =>
    if startsWithL tripleB (c :: cs) then
      let rest := cs.drop 2
      let lang := rest.takeWhile isAsciiLetter
      match rest.drop lang.length with
      | '\n' :: body =>
        match (subPositions tripleB body).head? with
        | some j =>
          "<pre><code class=\"language-".data ++ lang ++ "\">".data ++
            body.take j ++ "</code></pre>".data ++
            codeFenceGo fuel (body.drop (j + 3))
        | none => c :: codeFenceGo fuel cs
      | _ => c :: codeFenceGo fuel cs
    else c :: codeFenceGo fuel cs

/-- ``s.replace(/```([a-z]*)\n([\s\S]*?)```/gim, "<pre><code ...>$2</code></pre>")``. -/
def codeFenceRepl (s : List Char) : List Char :=
  codeFenceGo (s.length + 1) s

/-- The single (non-global) replacement `/(<li>.*<\/li>)/s → "<ul>$1</ul>"`:
with the dot-all flag and a greedy `.*`, the match runs from the first
`<li>` to the end of the last `</li>` that starts after it; if either
end is missing the string is unchanged. -/
def ulWrapOnce (s : List Char) : List Char :=
  match (subPositions "<li>".data s).head? with
  | none => s
  | some i =>
    match (subPositions "</li>".data (s.drop (i + 4))).getLast? with
    | none => s
    | some k =>
      s.take i ++ "<ul>".data ++ (s.drop i).take (4 + k + 5) ++
        "</ul>".data ++ (s.drop (i + 4)).drop (k + 5)

/-- Sentence-terminal punctuation `[\.!\?]` of the summary/highlight
sentence splitter. -/
def isSentencePunct (c : Char) : Bool :=
  c = '.' || c = '!' || c = '?'

/-- Scanner for `cleaned.split(/(?<=[\.!\?])\s+/)`: the separators are
maximal whitespace runs whose preceding character is sentence-terminal
punctuation.  `prev` is the character before the current position
(`'A'` at the start of input, where the look-behind cannot match);
`cur` accumulates the current piece in reverse. -/
def sentSplitGo : Nat → Char → List Char → List Char → List (List Char)
  | 0, _, cur, s => [cur.reverse ++ s]
  | _ + 1, _, cur, [] => [cur.reverse]
  | fuel + 1, prev, cur, c :: cs =>
    if isSpaceJS c && isSentencePunct prev then
      let run := cs.takeWhile isSpaceJS
      cur.reverse :: sentSplitGo fuel ' ' [] (cs.drop run.length)
    else sentSplitGo fuel c (c :: cur) cs

/-- `s.split(/(?<=[\.!\?])\s+/)`. -/
def sentSplit (s : List Char) : List (List Char) :=
  sentSplitGo (s.length + 1) 'A' [] s

/-- The text computed inside `handleCopyPlainText` before the clipboard
write: strip fenced code blocks, unwrap inline code, remove
heading/quote/list markers, reduce links and images to their text,
collapse runs of three or more newlines, strip the emoji ranges, and
trim.  (The clipboard write and the copied-indicator state are not
modelled.) -/
def copyPlainText (content : String) : String :=
  let s1 := fencesRepl [] content.data
  let s2 := inlineCodeRepl [] [] s1
  let s3 := lineMarkRepl s2
  let s4 := linkRepl (fun t _ => t) s3
  let s5 := imageRepl s4
  let s6 := nlRunRepl s5
  let s7 := emojiStripCopy s6
  String.mk (trimJS s7)

/-- The anchor built by the HTML export for `[text](url)`:
`<a href="$2" target="_blank" rel="noopener noreferrer">$1</a>`. -/
def mkAnchor (t u : List Char) : List Char :=
  "<a href=\"".data ++ u ++
    "\" target=\"_blank\" rel=\"noopener noreferrer\">".data ++ t ++
    "</a>".data

/-- `markdownToHtml` from `handleDownloadHtml` in `ChatMessagesView.tsx`:
the order-dependent regex substitution chain (headings, bold, italic,
links, code, list items, one `<ul>` wrap, blockquotes, rules, paragraph
breaks), the paragraph wrap `'<p>' + html + '</p>'`, and the final
removal of empty paragraphs `/<p><\/p>/gim → ''`. -/
def markdownToHtml (markdown : String) : String :=
  let h1 := lineHeadRepl "### ".data "<h3>".data "</h3>".data markdown.data
  let h2 := lineHeadRepl "## ".data "<h2>".data "</h2>".data h1
  let h3 := lineHeadRepl "# ".data "<h1>".data "</h1>".data h2
  let h4 := lazyPairRepl "**".data "<strong>".data "</strong>".data h3
  let h5 := lazyPairRepl "__".data "<strong>".data "</strong>".data h4
  let h6 := lazyPairRepl "*".data "<em>".data "</em>".data h5
  let h7 := lazyPairRepl "_".data "<em>".data "</em>".data h6
  let h8 := linkRepl mkAnchor h7
  let h9 := codeFenceRepl h8
  let h10 := inlineCodeRepl "<code>".data "</code>".data h9
  let h11 := lineHeadRepl "* ".data "<li>".data "</li>".data h10
  let h12 := lineHeadRepl "- ".data "<li>".data "</li>".data h11
  let h13 := ulWrapOnce h12
  let h14 := lineHeadRepl "> ".data "<blockquote>".data "</blockquote>".data h13
  let h15 := hrRepl "---".data "<hr>".data h14
  let h16 := replaceLit "\n\n".data "</p><p>".data h15
  let h17 := "<p>".data ++ h16 ++ "</p>".data
  String.mk (replaceLit "<p></p>".data [] h17)

/-- `cleanText` from `handleDownloadPdf` in `ChatMessagesView.tsx`:
delete citation links, strip remaining bare URLs, unwrap emphasis and
inline code, drop leftover `[]`/`()` artifacts, collapse whitespace and
trim. -/
def cleanText (text : String) : String :=
  let s1 := citeLinkStrip text.data
  let s2 := urlStrip s1
  let s3 := lazyPairRepl "**".data [] [] s2
  let s4 := lazyPairRepl "__".data [] [] s3
  let s5 := lazyPairRepl "*".data [] [] s4
  let s6 := lazyPairRepl "_".data [] [] s5
  let s7 := inlineCodeRepl [] [] s6
  let s8 := replaceLit "[]".data [] s7
  let s9 := replaceLit "()".data [] s8
  let s10 := wsCollapse s9
  String.mk (trimJS s10)

/-- The `cleaned` text shared by `handleGenerateHighlights` and
`handleGenerateSummary`: fenced code blocks become a space, inline code
is unwrapped, heading/quote/list markers are removed, links and images
reduce to their text, whitespace collapses to single spaces, and the
result is trimmed. -/
def insightsCleaned (content : String) : String :=
  let s1 := fencesRepl [' '] content.data
  let s2 := inlineCodeRepl [] [] s1
  let s3 := lineMarkRepl s2
  let s4 := linkRepl (fun t _ => t) s3
  let s5 := imageRepl s4
  let s6 := wsCollapse s5
  String.mk (trimJS s6)

/-- The `sentences` list of the summary/highlight generators: split the
cleaned text on sentence boundaries, trim each piece, and keep the
non-empty ones. -/
def sentencesOf (content : String) : List String :=
  (((sentSplit (insightsCleaned content).data).map
      (fun p => String.mk (trimJS p))).filter
    (fun s => 0 < s.length))

/-- One step of the stable descending insertion used to model
`Array.prototype.sort` with the comparator `(a, b) => b.score - a.score`:
an element is placed after every element of score greater than or equal
to its own. -/
def sortInsert (x : String × Nat) : List (String × Nat) → List (String × Nat)
  | [] => [x]
  | y :: ys => if y.2 < x.2 then x :: y :: ys else y :: sortInsert x ys

/-- Model of `scored.sort((a, b) => b.score - a.score)`.  The comparator
is a total preorder on the score, and `Array.prototype.sort` is stable
(ECMAScript 2019), so its result is the unique stable descending order,
which this left-to-right insertion produces. -/
def jsSortDesc (l : List (String × Nat)) : List (String × Nat) :=
  l.foldl (fun acc x => sortInsert x acc) []

/-- The `scored` list of `handleGenerateHighlights`: each sentence with
its score `Math.min(s.length, 300)`. -/
def scoredOf (content : String) : List (String × Nat) :=
  (sentencesOf content).map (fun s => (s, min s.length 300))

/-- The sorted `scored` list of `handleGenerateHighlights`. -/
def sortedScoredOf (content : String) : List (String × Nat) :=
  jsSortDesc (scoredOf content)

/-- The `top` list of `handleGenerateHighlights`:
`scored.slice(0, 5).map((s) => s.text)` after sorting. -/
def highlightsFor (content : String) : List String :=
  ((sortedScoredOf content).take 5).map Prod.fst

/-- The `summary` string of `handleGenerateSummary`:
`sentences.slice(0, 3).join(" ")`. -/
def summaryFor (content : String) : String :=
  String.intercalate " " ((sentencesOf content).take 3)

/-- Model of `handleGenerateHighlights`: when the cleaned text is empty
nothing happens; otherwise the highlight list for the message id is
stored in the `highlightsByMessage` map.  (The `expandedInsights` flag
is purely visual and is not modelled.) -/
def handleGenerateHighlights (content messageId : String)
    (st : String → Option (List String)) : String → Option (List String) :=
  if insightsCleaned content = "" then st
  else fun k => if k = messageId then some (highlightsFor content) else st k

/-- Model of `handleGenerateSummary`: when the cleaned text is empty
nothing happens; otherwise the summary string for the message id is
stored in the `summaryByMessage` map. -/
def handleGenerateSummary (content messageId : String)
    (st : String → Option String) : String → Option String :=
  if insightsCleaned content = "" then st
  else fun k => if k = messageId then some (summaryFor content) else st k

/-- A JSON value as returned by `JSON.parse`.  Numbers are kept as their
source lexeme: none of the verified properties depend on numeric
semantics, only on parse success or failure. -/
inductive JVal where
  | jnull
  | jbool (b : Bool)
  | jnum (lexeme : List Char)
  | jstr (chars : List Char)
  | jarr (elems : List JVal)
  | jobj (fields : List (List Char × JVal))

/-- JSON insignificant whitespace: space, tab, line feed, carriage
return. -/
def jsonWsC (c : Char) : Bool :=
  c = ' ' || c = '\t' || c = '\n' || c = '\r'

/-- ASCII decimal digit. -/
def isDigitC (c : Char) : Bool :=
  let n := c.toNat
  48 ≤ n && n ≤ 57

/-- Hexadecimal digit value, if any. -/
def hexVal (c : Char) : Option Nat :=
  let n := c.toNat
  if 48 ≤ n && n ≤ 57 then some (n - 48)
  else if 97 ≤ n && n ≤ 102 then some (n - 87)
  else if 65 ≤ n && n ≤ 70 then some (n - 55)
  else none

/-- Modelled from the spec: lexing of a JSON number
(`-?(0|[1-9][0-9]*)(\.[0-9]+)?([eE][+-]?[0-9]+)?` per ECMA-404, the
grammar implemented by the browser's `JSON.parse`, which is not part of
this repository).  Returns the lexeme and the remaining input. -/
def jsonNumLex (s : List Char) : Option (List Char × List Char) :=
  let (sign, s1) := match s with
    | '-' :: r => (['-'], r)
    | _ => ([], s)
  match s1 with
  | '0' :: r1 => jsonNumTail (sign ++ ['0']) r1
  | c :: r1 =>
    if isDigitC c && c != '0' then
      let ds := r1.takeWhile isDigitC
      jsonNumTail (sign ++ c :: ds) (r1.drop ds.length)
    else none
  | [] => none
where
  /-- The optional fraction and exponent parts. -/
  jsonNumTail (acc : List Char) (r : List Char) :
      Option (List Char × List Char) :=
    let (acc1, r1) := match r with
      | '.' :: r' =>
        let ds := r'.takeWhile isDigitC
        if ds.isEmpty then (([] : List Char), ('.' :: r'))
        else (('.' :: ds), r'.drop ds.length)
      | _ => ([], r)
    if acc1.isEmpty && (match r with | '.' :: _ => true | _ => false) then
      none
    else
      match r1 with
      | c :: r2 =>
        if c = 'e' || c = 'E' then
          let (sg, r3) := match r2 with
            | '+' :: r' => (['+'], r')
            | '-' :: r' => (['-'], r')
            | _ => ([], r2)
          let ds := r3.takeWhile isDigitC
          if ds.isEmpty then none
          else some (acc ++ acc1 ++ c :: sg ++ ds, r3.drop ds.length)
        else some (acc ++ acc1, r1)
      | [] => some (acc ++ acc1, r1)

/-- Modelled from the spec: the body of a JSON string literal after the
opening quote (ECMA-404, as implemented by the browser's `JSON.parse`,
which is not part of this repository).  Escapes are decoded; a `\uXXXX`
escape becomes the character of that code, `Char.ofNat` mapping the
(surrogate) codes that are not Lean scalar values to `'\0'`; raw
control characters below `U+0020` are rejected. -/
def jsonStrGo : List Char → Option (List Char × List Char)
  | [] => none
  | '"' :: r => some ([], r)
  | '\\' :: e :: r =>
    match e with
    | '"' => (jsonStrGo r).map (fun p => ('"' :: p.1, p.2))
    | '\\' => (jsonStrGo r).map (fun p => ('\\' :: p.1, p.2))
    | '/' => (jsonStrGo r).map (fun p => ('/' :: p.1, p.2))
    | 'b' => (jsonStrGo r).map (fun p => (Char.ofNat 8 :: p.1, p.2))
    | 'f' => (jsonStrGo r).map (fun p => (Char.ofNat 12 :: p.1, p.2))
    | 'n' => (jsonStrGo r).map (fun p => ('\n' :: p.1, p.2))
    | 'r' => (jsonStrGo r).map (fun p => (Char.ofNat 13 :: p.1, p.2))
    | 't' => (jsonStrGo r).map (fun p => ('\t' :: p.1, p.2))
    | 'u' =>
      match r with
      | h1 :: h2 :: h3 :: h4 :: r' =>
        match hexVal h1, hexVal h2, hexVal h3, hexVal h4 with
        | some a, some b, some c, some d =>
          (jsonStrGo r').map
            (fun p => (Char.ofNat (((a * 16 + b) * 16 + c) * 16 + d) :: p.1, p.2))
        | _, _, _, _ => none
      | _ => none
    | _ => none
  | c :: r =>
    if c.toNat < 32 then none
    else (jsonStrGo r).map (fun p => (c :: p.1, p.2))

mutual

/-- Modelled from the spec: a JSON value (ECMA-404, as implemented by
the browser's `JSON.parse`, which is not part of this repository).
The input is assumed whitespace-skipped; returns the value and the
remaining input. -/
def jsonValGo : Nat → List Char → Option (JVal × List Char)
  | 0, _ => none
  | fuel + 1, s =>
    match s with
    | 'n' :: 'u' :: 'l' :: 'l' :: r => some (.jnull, r)
    | 't' :: 'r' :: 'u' :: 'e' :: r => some (.jbool true, r)
    | 'f' :: 'a' :: 'l' :: 's' :: 'e' :: r => some (.jbool false, r)
    | '"' :: r => (jsonStrGo r).map (fun p => (.jstr p.1, p.2))
    | '[' :: r =>
      match r.dropWhile jsonWsC with
      | ']' :: r2 => some (.jarr [], r2)
      | r1 => (jsonElemsGo fuel r1 []).map (fun p => (.jarr p.1, p.2))
    | '{' :: r =>
      match r.dropWhile jsonWsC with
      | '}' :: r2 => some (.jobj [], r2)
      | r1 => (jsonMembersGo fuel r1 []).map (fun p => (.jobj p.1, p.2))
    | _ => (jsonNumLex s).map (fun p => (.jnum p.1, p.2))

/-- Modelled from the spec: the elements of a JSON array after `[`,
first element expected next (whitespace already skipped). -/
def jsonElemsGo : Nat → List Char → List JVal →
    Option (List JVal × List Char)
  | 0, _, _ => none
  | fuel + 1, s, acc =>
    match jsonValGo fuel s with
    | none => none
    | some (v, r) =>
      match r.dropWhile jsonWsC with
      | ',' :: r2 => jsonElemsGo fuel (r2.dropWhile jsonWsC) (acc ++ [v])
      | ']' :: r2 => some (acc ++ [v], r2)
      | _ => none

/-- Modelled from the spec: the members of a JSON object after `{`,
first member expected next (whitespace already skipped). -/
def jsonMembersGo : Nat → List Char → List (List Char × JVal) →
    Option (List (List Char × JVal) × List Char)
  | 0, _, _ => none
  | fuel + 1, s, acc =>
    match s with
    | '"' :: r =>
      match jsonStrGo r with
      | none => none
      | some (key, r1) =>
        match r1.dropWhile jsonWsC with
        | ':' :: r2 =>
          match jsonValGo fuel (r2.dropWhile jsonWsC) with
          | none => none
          | some (v, r3) =>
            match r3.dropWhile jsonWsC with
            | ',' :: r4 =>
              jsonMembersGo fuel (r4.dropWhile jsonWsC) (acc ++ [(key, v)])
            | '}' :: r4 => some (acc ++ [(key, v)], r4)
            | _ => none
        | _ => none
    | _ => none

end

/-- Modelled from the spec: `JSON.parse` (a browser built-in, not part
of this repository), as `none` on any malformed input instead of a
thrown exception.  Leading and trailing whitespace is allowed; the
whole input must be consumed. -/
def jsonParse (s : String) : Option JVal :=
  match jsonValGo (2 * s.data.length + 4) (s.data.dropWhile jsonWsC) with
  | some (v, r) => if (r.dropWhile jsonWsC).isEmpty then some v else none
  | none => none

/-- The `pinnedMessages` initializer of `ChatMessagesView`: the stored
string under `'epc-pinned-messages'` (`none` when the key is absent) is
parsed, the empty string being falsy and skipped; any parse failure is
caught and yields the empty array.  The raw parsed value is returned
without shape checking, as in the source. -/
def pinnedMessagesInit (saved : Option String) : JVal :=
  match saved with
  | none => .jarr []
  | some s =>
    if s = "" then .jarr []
    else
      match jsonParse s with
      | some v => v
      | none => .jarr []

/-- The `messageTagsMap` initializer of `ChatMessagesView`: as
`pinnedMessagesInit` for the key `'epc-message-tags'`, with the empty
object as the fallback. -/
def messageTagsMapInit (saved : Option String) : JVal :=
  match saved with
  | none => .jobj []
  | some s =>
    if s = "" then .jobj []
    else
      match jsonParse s with
      | some v => v
      | none => .jobj []

/-- `noBacktick s` holds when `s` contains no backtick character. -/
def noBacktick (s : List Char) : Bool :=
  s.all (fun c => c != btick)

/-- The input contains none of the markdown constructs rewritten by
`markdownToHtml`: each substitution stage of the chain leaves it
unchanged (headings, bold, italic, links, fenced and inline code, list
items, the list wrap, blockquotes, horizontal rules, and paragraph
breaks). -/
def markdownFree (s : String) : Prop :=
  lineHeadRepl "### ".data "<h3>".data "</h3>".data s.data = s.data ∧
  lineHeadRepl "## ".data "<h2>".data "</h2>".data s.data = s.data ∧
  lineHeadRepl "# ".data "<h1>".data "</h1>".data s.data = s.data ∧
  lazyPairRepl "**".data "<strong>".data "</strong>".data s.data = s.data ∧
  lazyPairRepl "__".data "<strong>".data "</strong>".data s.data = s.data ∧
  lazyPairRepl "*".data "<em>".data "</em>".data s.data = s.data ∧
  lazyPairRepl "_".data "<em>".data "</em>".data s.data = s.data ∧
  linkRepl mkAnchor s.data = s.data ∧
  codeFenceRepl s.data = s.data ∧
  inlineCodeRepl "<code>".data "</code>".data s.data = s.data ∧
  lineHeadRepl "* ".data "<li>".data "</li>".data s.data = s.data ∧
  lineHeadRepl "- ".data "<li>".data "</li>".data s.data = s.data ∧
  ulWrapOnce s.data = s.data ∧
  lineHeadRepl "> ".data "<blockquote>".data "</blockquote>".data s.data
    = s.data ∧
  hrRepl "---".data "<hr>".data s.data = s.data ∧
  replaceLit "\n\n".data "</p><p>".data s.data = s.data

/-- Markdown-freeness is decidable, each conjunct being an equality of
character lists. -/
instance markdownFreeDecidable (s : String) : Decidable (markdownFree s) := by
  unfold markdownFree
  infer_instance

/-- The descending-by-score order used by the highlight sort. -/
def scoreGE (a b : String × Nat) : Prop := b.2 ≤ a.2

/-! ### Helper lemmas -/

/-- A string removed by `filter (· != a)` is no longer contained. -/
theorem contains_filter_bne_self (l : List String) (a : String) :
    (l.filter (· != a)).contains a = false := by
  rw [← Bool.not_eq_true, List.contains, List.elem_iff]
  intro hmem
  rcases (List.mem_filter.mp hmem) with ⟨_, hne⟩
  simp [bne_self_eq_false] at hne

/-- `filter (· != a)` is the identity when `a` is absent. -/
theorem filter_bne_of_not_mem (l : List String) (a : String) (h : a ∉ l) :
    l.filter (· != a) = l :=
  List.filter_eq_self.mpr (fun _ hx => bne_iff_ne.mpr (fun hxa => h (hxa ▸ hx)))

/-! ### C6: pin toggling is involutive on membership -/

/-- C6: pin toggling is involutive up to reordering: applying
`handleTogglePin` twice with the same message id yields a list
containing exactly the same ids as the original (the same membership;
the toggled id may move to the end). -/
theorem togglePin_involutive_mem (prev : List String) (messageId x : String) :
    x ∈ handleTogglePin messageId (handleTogglePin messageId prev) ↔
      x ∈ prev := by
  by_cases h : prev.contains messageId
  · have hm : messageId ∈ prev := List.elem_iff.mp h
    have h1 : handleTogglePin messageId prev = prev.filter (· != messageId) := by
      rw [handleTogglePin, if_pos h]
    rw [h1, handleTogglePin, if_neg (by simp [contains_filter_bne_self])]
    constructor
    · intro hx
      rcases List.mem_append.mp hx with hx | hx
      · exact (List.mem_filter.mp hx).1
      · rwa [List.mem_singleton.mp hx]
    · intro hx
      by_cases hxe : x = messageId
      · exact List.mem_append.mpr (Or.inr (by simp [hxe]))
      · exact List.mem_append.mpr
          (Or.inl (List.mem_filter.mpr ⟨hx, bne_iff_ne.mpr hxe⟩))
  · have hm : messageId ∉ prev := fun hmem => h (List.elem_iff.mpr hmem)
    have h1 : handleTogglePin messageId prev = prev ++ [messageId] := by
      rw [handleTogglePin, if_neg h]
    rw [h1, handleTogglePin,
      if_pos (List.elem_iff.mpr (List.mem_append.mpr (Or.inr (by simp)))),
      List.filter_append, filter_bne_of_not_mem prev messageId hm]
    simp [bne_self_eq_false]

/-! ### C10: pin toggling preserves distinctness of the pinned ids -/

/-- C10: `handleTogglePin` preserves the invariant that the pinned list
has pairwise-distinct ids: unpinning filters out every occurrence and
pinning appends only an id that is not already present. -/
theorem togglePin_nodup (prev : List String) (messageId : String)
    (h : prev.Nodup) : (handleTogglePin messageId prev).Nodup := by
  rw [handleTogglePin]
  by_cases hc : prev.contains messageId
  · rw [if_pos hc]
    exact List.Nodup.filter _ h
  · rw [if_neg hc]
    refine List.nodup_append.mpr ⟨h, List.nodup_singleton _, ?_⟩
    intro a ha hamem
    rw [List.mem_singleton.mp hamem] at ha
    exact hc (List.elem_iff.mpr ha)

/-- Witness for C10 at a concrete state: toggling `"b"` on the
duplicate-free list `["a", "b"]` keeps the ids pairwise distinct. -/
theorem togglePin_nodup_witness :
    (["a", "b"] : List String).Nodup ∧
      (handleTogglePin "b" ["a", "b"]).Nodup :=
  ⟨by decide, togglePin_nodup ["a", "b"] "b" (by decide)⟩

/-! ### C7: tag assignment keeps at most one tag per message id -/

/-- Overwriting an existing key leaves the key list unchanged. -/
theorem tagKeys_setTag_of_mem (messageId : String) (tag : Tag) (m : TagMap)
    (h : m.any (fun p => p.1 == messageId) = true) :
    tagKeys (handleSetTag messageId tag m) = tagKeys m := by
  rw [handleSetTag, if_pos h, tagKeys, tagKeys, List.map_map]
  refine List.map_congr_left (fun p _ => ?_)
  by_cases hc : p.1 == messageId
  · simp [Function.comp, hc, (eq_of_beq hc).symm]
  · simp [Function.comp, hc]

/-- A key reported absent by `any` is not among the keys. -/
theorem not_mem_tagKeys_of_any_false (messageId : String) (m : TagMap)
    (h : m.any (fun p => p.1 == messageId) = false) :
    messageId ∉ tagKeys m := by
  intro hmem
  rcases List.mem_map.mp hmem with ⟨p, hp, hpk⟩
  have : m.any (fun p => p.1 == messageId) = true :=
    List.any_eq_true.mpr ⟨p, hp, beq_iff_eq.mpr hpk⟩
  rw [h] at this
  exact Bool.false_ne_true this

/-- `handleSetTag` preserves distinctness of the tag-map keys. -/
theorem setTag_keys_nodup (messageId : String) (tag : Tag) (m : TagMap)
    (h : (tagKeys m).Nodup) :
    (tagKeys (handleSetTag messageId tag m)).Nodup := by
  by_cases ha : m.any (fun p => p.1 == messageId) = true
  · rwa [tagKeys_setTag_of_mem messageId tag m ha]
  · have ha' : m.any (fun p => p.1 == messageId) = false :=
      Bool.eq_false_iff.mpr ha
    rw [handleSetTag, if_neg ha, tagKeys, List.map_append]
    refine List.nodup_append.mpr ⟨h, List.nodup_singleton _, ?_⟩
    intro a hamem hasing
    rw [List.mem_singleton.mp hasing] at hamem
    exact not_mem_tagKeys_of_any_false messageId m ha' hamem

/-- `handleRemoveTag` preserves distinctness of the tag-map keys. -/
theorem removeTag_keys_nodup (messageId : String) (m : TagMap)
    (h : (tagKeys m).Nodup) :
    (tagKeys (handleRemoveTag messageId m)).Nodup :=
  List.Nodup.sublist (List.Sublist.map _ (List.filter_sublist m)) h

/-- Any sequence of tag operations preserves key distinctness. -/
theorem applyTagOps_keys_nodup (ops : List TagOp) (m : TagMap)
    (h : (tagKeys m).Nodup) :
    (tagKeys (applyTagOps ops m)).Nodup := by
  induction ops generalizing m with
  | nil => exact h
  | cons op rest ih =>
    rw [applyTagOps, List.foldl_cons]
    refine ih _ ?_
    cases op with
    | set messageId tag => exact setTag_keys_nodup messageId tag m h
    | remove messageId => exact removeTag_keys_nodup messageId m h

/-- After overwriting an existing key, the first binding found for it
carries the new tag. -/
theorem find_setTag_mapped (messageId : String) (tag : Tag) (m : TagMap)
    (h : m.any (fun p => p.1 == messageId) = true) :
    (m.map (fun p => if p.1 == messageId then (messageId, tag) else p)).find?
      (fun q => q.1 == messageId) = some (messageId, tag) := by
  induction m with
  | nil => simp at h
  | cons p rest ih =>
    by_cases hc : p.1 == messageId
    · simp [hc, List.find?]
    · have h' : rest.any (fun p => p.1 == messageId) = true := by
        rcases List.any_eq_true.mp h with ⟨q, hq, hqk⟩
        rcases List.mem_cons.mp hq with rfl | hq'
        · exact absurd hqk (by simpa using hc)
        · exact List.any_eq_true.mpr ⟨q, hq', hqk⟩
      simpa [hc, List.find?] using ih h'

/-- Setting a tag makes the lookup for that id return exactly that tag. -/
theorem lookupTag_setTag (messageId : String) (tag : Tag) (m : TagMap) :
    lookupTag messageId (handleSetTag messageId tag m) = some tag := by
  by_cases ha : m.any (fun p => p.1 == messageId) = true
  · rw [lookupTag, handleSetTag, if_pos ha, find_setTag_mapped messageId tag m ha]
    rfl
  · have hnone : m.find? (fun q => q.1 == messageId) = none :=
      List.find?_eq_none.mpr (fun q hq hqk =>
        ha (List.any_eq_true.mpr ⟨q, hq, hqk⟩))
    rw [lookupTag, handleSetTag, if_neg ha, List.find?_append, hnone]
    simp [List.find?]

/-- C7: starting from any tag map with pairwise-distinct keys, every
sequence of `handleSetTag`/`handleRemoveTag` operations keeps each
message id bound to at most one tag (the key list stays
duplicate-free), and a further `handleSetTag` replaces any prior tag:
its id then looks up to exactly the new tag. -/
theorem setTag_overwrites_and_keys_unique (m : TagMap)
    (h : (tagKeys m).Nodup) (ops : List TagOp) :
    (tagKeys (applyTagOps ops m)).Nodup ∧
      ∀ (messageId : String) (tag : Tag),
        lookupTag messageId
          (handleSetTag messageId tag (applyTagOps ops m)) = some tag :=
  ⟨applyTagOps_keys_nodup ops m h,
    fun messageId tag => lookupTag_setTag messageId tag (applyTagOps ops m)⟩

/-- Witness for C7 at concrete inputs, the spec's scenario: from the
empty map, tag `"m1"` as `action`, then tag `"m1"` as `decision` — the
keys stay duplicate-free and `"m1"` looks up to `decision` alone. -/
theorem setTag_overwrites_witness :
    (tagKeys (applyTagOps [TagOp.set "m1" Tag.action] [])).Nodup ∧
      lookupTag "m1"
        (handleSetTag "m1" Tag.decision
          (applyTagOps [TagOp.set "m1" Tag.action] [])) = some Tag.decision :=
  ⟨(setTag_overwrites_and_keys_unique [] (by decide)
      [TagOp.set "m1" Tag.action]).1,
    (setTag_overwrites_and_keys_unique [] (by decide)
      [TagOp.set "m1" Tag.action]).2 "m1" Tag.decision⟩

/-! ### C9: plain-text copy strips balanced fenced code blocks -/

/-- A pattern occurs at the head of itself followed by anything. -/
theorem startsWithL_append_self (p t : List Char) :
    startsWithL p (p ++ t) = true := by
  induction p with
  | nil => rfl
  | cons c cs ih => simp [startsWithL, ih]

/-- A fence cannot start at a non-backtick character. -/
theorem startsWithL_tripleB_cons_ne (c : Char) (cs : List Char)
    (hc : c ≠ btick) : startsWithL tripleB (c :: cs) = false := by
  have : (btick = c) = False := by simp [eq_comm, hc]
  simp [tripleB, startsWithL, this]

/-- Dropping an initial segment plus `k` drops `k` of the remainder. -/
theorem drop_append_len (pre t : List Char) (k : Nat) :
    (pre ++ t).drop (pre.length + k) = t.drop k := by
  induction pre with
  | nil => simp
  | cons c cs ih => simp [Nat.succ_add, ih]

/-- The fence scanner gives the same output under any sufficient fuel. -/
theorem fencesGo_fuel_irrel (repl : List Char) :
    ∀ (f₁ : Nat), ∀ (s : List Char), ∀ (f₂ : Nat),
      s.length < f₁ → s.length < f₂ →
        fencesGo repl f₁ s = fencesGo repl f₂ s := by
  intro f₁
  induction f₁ with
  | zero => intro s f₂ h₁ _; exact absurd h₁ (Nat.not_lt_zero _)
  | succ g₁ ih =>
    intro s f₂ h₁ h₂
    match f₂, h₂ with
    | g₂ + 1, h₂ =>
      match s with
      | [] => rfl
      | c :: cs =>
        have hcs₁ : cs.length < g₁ := Nat.lt_of_succ_lt_succ h₁
        have hcs₂ : cs.length < g₂ := Nat.lt_of_succ_lt_succ h₂
        rw [fencesGo, fencesGo]
        by_cases hs : startsWithL tripleB (c :: cs) = true
        · rw [if_pos hs, if_pos hs]
          cases hj : (subPositions tripleB (cs.drop 2)).head? with
          | none =>
            show c :: fencesGo repl g₁ cs = c :: fencesGo repl g₂ cs
            rw [ih cs g₂ hcs₁ hcs₂]
          | some j =>
            have hlen₁ : ((cs.drop 2).drop (j + 3)).length < g₁ := by
              have e₁ := List.length_drop (j + 3) (cs.drop 2)
              have e₂ := List.length_drop 2 cs
              omega
            have hlen₂ : ((cs.drop 2).drop (j + 3)).length < g₂ := by
              have e₁ := List.length_drop (j + 3) (cs.drop 2)
              have e₂ := List.length_drop 2 cs
              omega
            show repl ++ fencesGo repl g₁ ((cs.drop 2).drop (j + 3)) =
              repl ++ fencesGo repl g₂ ((cs.drop 2).drop (j + 3))
            rw [ih _ g₂ hlen₁ hlen₂]
        · rw [if_neg hs, if_neg hs]
          rw [ih cs g₂ hcs₁ hcs₂]

/-- A non-backtick head character passes through the fence replacement. -/
theorem fencesRepl_cons_of_ne (repl : List Char) (c : Char) (cs : List Char)
    (hc : c ≠ btick) :
    fencesRepl repl (c :: cs) = c :: fencesRepl repl cs := by
  have hs := startsWithL_tripleB_cons_ne c cs hc
  rw [fencesRepl, List.length_cons, fencesGo, if_neg (by simp [hs]), fencesRepl]

/-- In `mid ++ fence ++ post` with `mid` backtick-free, the earliest
fence occurrence starts exactly at `mid.length`. -/
theorem subPositions_block_head (mid post : List Char)
    (h : noBacktick mid = true) :
    (subPositions tripleB (mid ++ (tripleB ++ post))).head? =
      some mid.length := by
  induction mid with
  | nil =>
    show (subPositions tripleB (tripleB ++ post)).head? = some 0
    cases hpost : tripleB ++ post with
    | nil => simp [tripleB] at hpost
    | cons d ds =>
      rw [subPositions, ← hpost]
      rw [if_pos (startsWithL_append_self tripleB post)]
      rfl
  | cons c cs ih =>
    have hc : c ≠ btick := by
      have := (List.all_eq_true.mp h) c (List.mem_cons_self c cs)
      exact bne_iff_ne.mp this
    have hcs : noBacktick cs = true :=
      List.all_eq_true.mpr (fun x hx =>
        (List.all_eq_true.mp h) x (List.mem_cons_of_mem c hx))
    show (subPositions tripleB (c :: (cs ++ (tripleB ++ post)))).head? =
      some (cs.length + 1)
    rw [subPositions,
      if_neg (by simp [startsWithL_tripleB_cons_ne c _ hc]),
      List.nil_append, List.head?_map, ih hcs]
    rfl

/-- A backtick-free initial segment passes through the fence
replacement unchanged. -/
theorem fencesRepl_append_nb (repl pre s : List Char)
    (h : noBacktick pre = true) :
    fencesRepl repl (pre ++ s) = pre ++ fencesRepl repl s := by
  induction pre with
  | nil => simp
  | cons c cs ih =>
    have hc : c ≠ btick := by
      have := (List.all_eq_true.mp h) c (List.mem_cons_self c cs)
      exact bne_iff_ne.mp this
    have hcs : noBacktick cs = true :=
      List.all_eq_true.mpr (fun x hx =>
        (List.all_eq_true.mp h) x (List.mem_cons_of_mem c hx))
    rw [List.cons_append, fencesRepl_cons_of_ne repl c (cs ++ s) hc, ih hcs,
      List.cons_append]

/-- A balanced fenced block with a backtick-free body is replaced as a
whole: the scan resumes right after the closing fence. -/
theorem fencesRepl_block (repl mid post : List Char)
    (h : noBacktick mid = true) :
    fencesRepl repl (tripleB ++ (mid ++ (tripleB ++ post))) =
      repl ++ fencesRepl repl post := by
  have hshape :
      tripleB ++ (mid ++ (tripleB ++ post)) =
        btick :: btick :: btick :: (mid ++ (tripleB ++ post)) := rfl
  rw [fencesRepl, hshape, fencesGo]
  rw [if_pos (by simpa [hshape] using
    startsWithL_append_self tripleB (mid ++ (tripleB ++ post)))]
  have hdrop :
      (btick :: btick :: (mid ++ (tripleB ++ post))).drop 2 =
        mid ++ (tripleB ++ post) := rfl
  rw [hdrop, subPositions_block_head mid post h]
  show repl ++
      fencesGo repl (btick :: btick :: btick :: (mid ++ (tripleB ++ post))).length
        ((mid ++ (tripleB ++ post)).drop (mid.length + 3)) =
    repl ++ fencesRepl repl post
  have hdrop₂ : (mid ++ (tripleB ++ post)).drop (mid.length + 3) = post := by
    rw [drop_append_len]
    rfl
  rw [hdrop₂, fencesRepl]
  rw [fencesGo_fuel_irrel repl
    (btick :: btick :: btick :: (mid ++ (tripleB ++ post))).length post
    (post.length + 1)
    (by simp [List.length_append, tripleB]; omega) (Nat.lt_succ_self _)]

/-- C9: the plain-text copy transformation strips balanced fenced code
blocks: on an input `pre ++ fence ++ mid ++ fence ++ post` whose
portions before and inside the block contain no backtick, the output is
the same as for the input without the block, so neither of that block's
fence delimiters (nor its body) reaches the output. -/
theorem copyPlainText_strips_fences (pre mid post : String)
    (hpre : noBacktick pre.data = true) (hmid : noBacktick mid.data = true) :
    copyPlainText
        (pre ++ String.mk tripleB ++ mid ++ String.mk tripleB ++ post) =
      copyPlainText (pre ++ post) := by
  have hdata :
      (pre ++ String.mk tripleB ++ mid ++ String.mk tripleB ++ post).data =
        pre.data ++ (tripleB ++ (mid.data ++ (tripleB ++ post.data))) := by
    simp [String.data_append]
  have hdata₂ : (pre ++ post).data = pre.data ++ post.data :=
    String.data_append pre post
  have key :
      fencesRepl [] (pre ++ String.mk tripleB ++ mid ++
          String.mk tripleB ++ post).data =
        fencesRepl [] (pre ++ post).data := by
    rw [hdata, hdata₂, fencesRepl_append_nb [] pre.data _ hpre,
      fencesRepl_append_nb [] pre.data post.data hpre,
      fencesRepl_block [] mid.data post.data hmid]
    rfl
  simp only [copyPlainText]
  rw [key]

/-- Witness for C9 at concrete strings: the block `` ```code``` ``
between `"a "` and `" b"` is removed entirely. -/
theorem copyPlainText_strips_fences_witness :
    noBacktick ("a " : String).data = true ∧
      noBacktick ("code" : String).data = true ∧
      copyPlainText
          ("a " ++ String.mk tripleB ++ "code" ++ String.mk tripleB ++ " b") =
        copyPlainText ("a " ++ " b") :=
  ⟨by decide, by decide,
    copyPlainText_strips_fences "a " "code" " b" (by decide) (by decide)⟩

/-! ### C1: the PDF text cleaner and citation links -/

/-- C1 (code bug): `cleanText` in `handleDownloadPdf` deletes
citation-style links wholesale instead of reducing them to their link
text.  On the line `"See [source](http://x.com) now"` the cleaned
output is `"See now"`: it does not contain the link text `"source"`
anywhere, contradicting the claim (and the code's own comment, which
says the substitution keeps only the text). -/
theorem cleanText_deletes_citation_link :
    cleanText "See [source](http://x.com) now" = "See now" ∧
      subPositions "source".data (cleanText "See [source](http://x.com) now").data
        = [] := by
  constructor
  · rfl
  · rfl

/-! ### C2: plain-text copy on the spec's scenario input -/

/-- C2 (counterexample): on the input
`"**bold** and [a link](http://x.com)"` the plain-text copy
transformation does not produce `"bold and a link"`: the substitution
chain of `handleCopyPlainText` has no rule for emphasis markers, so the
asterisks survive. -/
theorem copyPlainText_scenario_counterexample :
    copyPlainText "**bold** and [a link](http://x.com)" ≠
      "bold and a link" := by
  decide

/-- C2 (amended): on the input `"**bold** and [a link](http://x.com)"`
the plain-text copy transformation produces exactly
`"**bold** and a link"` — the link is reduced to its text, but the
emphasis markers are kept. -/
theorem copyPlainText_scenario_amended :
    copyPlainText "**bold** and [a link](http://x.com)" =
      "**bold** and a link" := by
  rfl

/-! ### C3: HTML export on markdown-free input -/

/-- Strings with equal character data are equal. -/
theorem string_ext (a b : String) (h : a.data = b.data) : a = b := by
  cases a
  cases b
  exact congrArg String.mk h

/-- A literal replacement whose pattern does not occur is the identity. -/
theorem replaceLitGo_of_no_occ (lit repl : List Char) :
    ∀ (fuel : Nat) (s : List Char), s.length < fuel →
      subPositions lit s = [] → replaceLitGo lit repl fuel s = s := by
  intro fuel
  induction fuel with
  | zero => intro s h₁ _; exact absurd h₁ (Nat.not_lt_zero _)
  | succ g ih =>
    intro s h₁ h₂
    match s with
    | [] => rfl
    | c :: cs =>
      have hs : startsWithL lit (c :: cs) = false := by
        by_cases hb : startsWithL lit (c :: cs) = true
        · rw [subPositions, if_pos hb] at h₂
          exact absurd h₂ (by simp)
        · exact Bool.eq_false_iff.mpr hb
      have hcs : subPositions lit cs = [] := by
        rw [subPositions, hs] at h₂
        simp only [Bool.false_eq_true, if_false, List.nil_append] at h₂
        exact List.map_eq_nil_iff.mp h₂
      rw [replaceLitGo, if_neg (by simp [hs]),
        ih cs (Nat.lt_of_succ_lt_succ h₁) hcs]

/-- A literal replacement whose pattern does not occur is the identity. -/
theorem replaceLit_of_no_occ (lit repl s : List Char)
    (h : subPositions lit s = []) : replaceLit lit repl s = s :=
  replaceLitGo_of_no_occ lit repl (s.length + 1) s (Nat.lt_succ_self _) h

/-- C3 (counterexample): the empty string contains no markdown syntax,
yet `markdownToHtml` returns the empty string on it, not
`"<p>" ++ "" ++ "</p>"`: the trailing cleanup `/<p><\/p>/gim → ''`
deletes the produced empty paragraph. -/
theorem markdownToHtml_empty_counterexample :
    markdownFree "" ∧ markdownToHtml "" = "" ∧
      markdownToHtml "" ≠ "<p>" ++ "" ++ "</p>" :=
  ⟨by decide, rfl, by decide⟩

/-- C3 (amended): on markdown-free input whose paragraph-wrapped form
contains no occurrence of `"<p></p>"` — in particular the input is
non-empty, does not contain `"<p></p>"`, does not start with `"</p>"`
and does not end with `"<p>"` — the HTML conversion is exactly the
paragraph wrap `'<p>' + input + '</p>'`. -/
theorem markdownToHtml_plain_wrap (s : String) (hfree : markdownFree s)
    (hp : subPositions "<p></p>".data ("<p>" ++ s ++ "</p>").data = []) :
    markdownToHtml s = "<p>" ++ s ++ "</p>" := by
  obtain ⟨e1, e2, e3, e4, e5, e6, e7, e8, e9, e10, e11, e12, e13, e14, e15,
    e16⟩ := hfree
  have hdata : ("<p>" ++ s ++ "</p>").data =
      "<p>".data ++ s.data ++ "</p>".data := by
    simp [String.data_append]
  rw [hdata] at hp
  simp only [markdownToHtml]
  rw [e1, e2, e3, e4, e5, e6, e7, e8, e9, e10, e11, e12, e13, e14, e15, e16,
    replaceLit_of_no_occ _ _ _ hp]
  exact string_ext _ _ hdata.symm

/-- Witness for C3 (amended) at a concrete input: `"hello world"` is
markdown-free and converts to `"<p>hello world</p>"`. -/
theorem markdownToHtml_plain_wrap_witness :
    markdownFree "hello world" ∧
      subPositions "<p></p>".data
        ("<p>" ++ "hello world" ++ "</p>").data = [] ∧
      markdownToHtml "hello world" = "<p>" ++ "hello world" ++ "</p>" :=
  ⟨by decide, by decide,
    markdownToHtml_plain_wrap "hello world" (by decide) (by decide)⟩

/-! ### C4/C5: heuristic summary and highlights -/

/-- Inserting into the stable descending sort is a permutation. -/
theorem sortInsert_perm (x : String × Nat) (l : List (String × Nat)) :
    (sortInsert x l).Perm (x :: l) := by
  induction l with
  | nil => exact List.Perm.refl _
  | cons y ys ih =>
    rw [sortInsert]
    by_cases hc : y.2 < x.2
    · rw [if_pos hc]
    · rw [if_neg hc]
      exact ((ih.cons y).trans (List.Perm.swap x y ys))

/-- The stable descending sort permutes its input. -/
theorem jsSortDesc_perm (l : List (String × Nat)) :
    (jsSortDesc l).Perm l := by
  have key : ∀ (l acc : List (String × Nat)),
      (l.foldl (fun a x => sortInsert x a) acc).Perm (acc ++ l) := by
    intro l
    induction l with
    | nil => intro acc; simp
    | cons x xs ih =>
      intro acc
      rw [List.foldl_cons]
      refine (ih (sortInsert x acc)).trans ?_
      have h₁ : (sortInsert x acc ++ xs).Perm ((x :: acc) ++ xs) :=
        (sortInsert_perm x acc).append_right xs
      refine h₁.trans ?_
      simp only [List.cons_append]
      exact List.Perm.symm (List.perm_middle)
  exact key l []

/-- Inserting preserves descending sortedness. -/
theorem sortInsert_sorted (x : String × Nat) (l : List (String × Nat))
    (h : List.Sorted scoreGE l) : List.Sorted scoreGE (sortInsert x l) := by
  induction l with
  | nil => simp [sortInsert, List.Sorted]
  | cons y ys ih =>
    rcases List.sorted_cons.mp h with ⟨hy, hys⟩
    rw [sortInsert]
    by_cases hc : y.2 < x.2
    · rw [if_pos hc]
      refine List.sorted_cons.mpr ⟨?_, h⟩
      intro b hb
      rcases List.mem_cons.mp hb with rfl | hb'
      · exact Nat.le_of_lt hc
      · exact Nat.le_trans (hy b hb') (Nat.le_of_lt hc)
    · rw [if_neg hc]
      refine List.sorted_cons.mpr ⟨?_, ih hys⟩
      intro b hb
      have hb' : b ∈ x :: ys := (sortInsert_perm x ys).mem_iff.mp hb
      rcases List.mem_cons.mp hb' with rfl | hb''
      · exact Nat.le_of_not_lt hc
      · exact hy b hb''

/-- The stable descending sort sorts by descending score. -/
theorem jsSortDesc_sorted (l : List (String × Nat)) :
    List.Sorted scoreGE (jsSortDesc l) := by
  have key : ∀ (l acc : List (String × Nat)), List.Sorted scoreGE acc →
      List.Sorted scoreGE (l.foldl (fun a x => sortInsert x a) acc) := by
    intro l
    induction l with
    | nil => intro acc h; exact h
    | cons x xs ih =>
      intro acc h
      rw [List.foldl_cons]
      exact ih (sortInsert x acc) (sortInsert_sorted x acc h)
  exact key l [] (by simp [List.Sorted])

/-- C4: when the cleaned text is non-empty, `handleGenerateSummary`
stores for the given message id exactly the first at-most-3 sentences
of the whitespace-collapsed cleaned text, joined by single spaces: the
stored string is the join of `take 3` of the sentence list, that slice
has at most 3 elements, it is an initial segment of the sentence list
(original order), and each of its entries is verbatim an entry of the
sentence list of the cleaned input. -/
theorem summary_first_three (content messageId : String)
    (st : String → Option String) (h : insightsCleaned content ≠ "") :
    handleGenerateSummary content messageId st messageId =
        some (String.intercalate " " ((sentencesOf content).take 3)) ∧
      ((sentencesOf content).take 3).length ≤ 3 ∧
      sentencesOf content =
        (sentencesOf content).take 3 ++ (sentencesOf content).drop 3 ∧
      ∀ t ∈ (sentencesOf content).take 3, t ∈ sentencesOf content := by
  refine ⟨?_, ?_, ?_, ?_⟩
  · rw [handleGenerateSummary, if_neg h, if_pos rfl, summaryFor]
  · rw [List.length_take]
    exact Nat.min_le_left _ _
  · exact (List.take_append_drop 3 (sentencesOf content)).symm
  · intro t ht
    exact List.mem_of_mem_take ht

/-- Witness for C4 at a concrete input. -/
theorem summary_first_three_witness :
    insightsCleaned "One. Two. Three. Four." ≠ "" ∧
      handleGenerateSummary "One. Two. Three. Four." "m1" (fun _ => none)
          "m1" =
        some (String.intercalate " "
          ((sentencesOf "One. Two. Three. Four.").take 3)) :=
  ⟨by decide,
    (summary_first_three "One. Two. Three. Four." "m1" (fun _ => none)
      (by decide)).1⟩

/-- C4/C5 sanity: on the concrete input the stored summary is the first
three sentences joined by spaces. -/
theorem summary_concrete_value :
    summaryFor "One. Two. Three. Four." = "One. Two. Three." := by
  rfl

/-- C5: when the cleaned text is non-empty, `handleGenerateHighlights`
stores for the given message id the list `highlightsFor content`; that
list has at most 5 entries, every entry is a non-empty sentence of the
cleaned input, and the sort is such that every sentence left out of the
top-5 slice scores no higher (by character length capped at 300) than
every sentence kept. -/
theorem highlights_top_five (content messageId : String)
    (st : String → Option (List String)) (h : insightsCleaned content ≠ "") :
    handleGenerateHighlights content messageId st messageId =
        some (highlightsFor content) ∧
      (highlightsFor content).length ≤ 5 ∧
      (∀ t ∈ highlightsFor content, t ∈ sentencesOf content ∧ t ≠ "") ∧
      (∀ x ∈ (sortedScoredOf content).take 5,
        ∀ y ∈ (sortedScoredOf content).drop 5, y.2 ≤ x.2) := by
  refine ⟨?_, ?_, ?_, ?_⟩
  · rw [handleGenerateHighlights, if_neg h, if_pos rfl]
  · rw [highlightsFor, List.length_map, List.length_take]
    exact Nat.le_trans (Nat.min_le_left _ _) (by omega)
  · intro t ht
    rcases List.mem_map.mp ht with ⟨p, hp, rfl⟩
    have hmem : p ∈ sortedScoredOf content := List.mem_of_mem_take hp
    have hscored : p ∈ scoredOf content :=
      (jsSortDesc_perm (scoredOf content)).mem_iff.mp hmem
    rcases List.mem_map.mp hscored with ⟨s, hs, rfl⟩
    refine ⟨hs, ?_⟩
    have hlen : 0 < s.length := by
      have := (List.mem_filter.mp hs).2
      exact of_decide_eq_true this
    intro hempty
    have hs0 : s = "" := hempty
    rw [hs0] at hlen
    exact absurd hlen (by decide)
  · intro x hx y hy
    have hsorted : List.Sorted scoreGE (sortedScoredOf content) :=
      jsSortDesc_sorted (scoredOf content)
    have hpw : List.Pairwise scoreGE
        ((sortedScoredOf content).take 5 ++ (sortedScoredOf content).drop 5) := by
      rw [List.take_append_drop]
      exact hsorted
    exact (List.pairwise_append.mp hpw).2.2 x hx y hy

/-- Witness for C5 at a concrete input. -/
theorem highlights_top_five_witness :
    insightsCleaned "Aa. Bbbb. Cc. Ddddd. Ee. Ffffff. Gg." ≠ "" ∧
      handleGenerateHighlights "Aa. Bbbb. Cc. Ddddd. Ee. Ffffff. Gg." "m1"
          (fun _ => none) "m1" =
        some (highlightsFor "Aa. Bbbb. Cc. Ddddd. Ee. Ffffff. Gg.") :=
  ⟨by decide,
    (highlights_top_five "Aa. Bbbb. Cc. Ddddd. Ee. Ffffff. Gg." "m1"
      (fun _ => none) (by decide)).1⟩

/-- C5 sanity: on the concrete input the stored highlights are the five
longest sentences in stable descending length order. -/
theorem highlights_concrete_value :
    highlightsFor "Aa. Bbbb. Cc. Ddddd. Ee. Ffffff. Gg." =
      ["Ffffff.", "Ddddd.", "Bbbb.", "Aa.", "Cc."] := by
  rfl

/-! ### C8: local-storage rehydration never throws -/

/-- C8: the pinned-messages and message-tags initializers are total and
fall back to the empty collection: an absent key yields the empty
array/object, a string whose parse fails (malformed JSON — the thrown
exception is modelled by `none`) yields the empty array/object, and a
string that parses successfully yields exactly the parsed value. -/
theorem rehydration_falls_back_to_empty :
    (pinnedMessagesInit none = JVal.jarr [] ∧
      (∀ s : String, jsonParse s = none →
        pinnedMessagesInit (some s) = JVal.jarr []) ∧
      (∀ (s : String) (v : JVal), jsonParse s = some v →
        pinnedMessagesInit (some s) = v)) ∧
    (messageTagsMapInit none = JVal.jobj [] ∧
      (∀ s : String, jsonParse s = none →
        messageTagsMapInit (some s) = JVal.jobj []) ∧
      (∀ (s : String) (v : JVal), jsonParse s = some v →
        messageTagsMapInit (some s) = v)) := by
  refine ⟨⟨rfl, ?_, ?_⟩, ⟨rfl, ?_, ?_⟩⟩
  · intro s hparse
    rw [pinnedMessagesInit]
    by_cases hs : s = ""
    · rw [if_pos hs]
    · rw [if_neg hs, hparse]
  · intro s v hparse
    rw [pinnedMessagesInit]
    by_cases hs : s = ""
    · rw [hs] at hparse
      have hnone : jsonParse "" = none := rfl
      rw [hnone] at hparse
      exact Option.noConfusion hparse
    · rw [if_neg hs, hparse]
  · intro s hparse
    rw [messageTagsMapInit]
    by_cases hs : s = ""
    · rw [if_pos hs]
    · rw [if_neg hs, hparse]
  · intro s v hparse
    rw [messageTagsMapInit]
    by_cases hs : s = ""
    · rw [hs] at hparse
      have hnone : jsonParse "" = none := rfl
      rw [hnone] at hparse
      exact Option.noConfusion hparse
    · rw [if_neg hs, hparse]

/-- Witness for C8 at concrete stored strings: truncated JSON and plain
garbage fall back to the empty collections, and a well-formed array is
returned as parsed. -/
theorem rehydration_falls_back_witness :
    pinnedMessagesInit (some "[1,") = JVal.jarr [] ∧
      pinnedMessagesInit (some "[\"m1\"]") = JVal.jarr [JVal.jstr ['m', '1']] ∧
      messageTagsMapInit (some "oops") = JVal.jobj [] :=
  ⟨rehydration_falls_back_to_empty.1.2.1 "[1," rfl,
    rehydration_falls_back_to_empty.1.2.2 "[\"m1\"]"
      (JVal.jarr [JVal.jstr ['m', '1']]) rfl,
    rehydration_falls_back_to_empty.2.2.1 "oops" rfl⟩
